import Mathlib

/-!
Verification of the client-side Reciprocal Rank Fusion (RRF) algorithm and the
search_docs tool of the mcp-psql repository.

The first part embeds the TypeScript function rrfFusion (and its weighted
variant) from skills/pgvector-semantic-search/SKILL.md.  JavaScript Map objects
are modelled as insertion-ordered association lists, and the stable
Array.prototype.sort with comparator (a, b) => b[1] - a[1] is modelled as a
stable insertion sort by descending score.  Numbers are modelled as rationals.

The second part models the RankFuser contract (validation, first-writer
content, deterministic tie-break) that the specification adds on top of the
snippets, and the third part embeds the search_docs tool from
src/apis/searchDocs.ts with the external embedding and database calls made
explicit.
-/

/-- A row of a ranked result list: `type Row = { id: number; content: string }`. -/
structure Row where
  id : ℤ
  content : String
deriving Repr, DecidableEq

/-- A fused result: `type Result = Row & { score: number }`. -/
structure Result where
  id : ℤ
  content : String
  score : ℚ
deriving Repr, DecidableEq

/-- JavaScript `Map.prototype.get`, on an insertion-ordered association list. -/
def mapGet {α : Type} : List (ℤ × α) → ℤ → Option α
  | [], _ => none
  | (k0, v0) :: rest, i => if k0 = i then some v0 else mapGet rest i

/-- JavaScript `Map.prototype.set`: update in place when the key exists
(keeping its insertion position), otherwise append at the end. -/
def mapSet {α : Type} : List (ℤ × α) → ℤ → α → List (ℤ × α)
  | [], i, v => [(i, v)]
  | (k0, v0) :: rest, i, v =>
      if k0 = i then (i, v) :: rest else (k0, v0) :: mapSet rest i v

/-- One `forEach` pass of `rrfFusion` over a result list: with 1-based rank `r`
it adds `w / (k + r)` to the score of the id (`scores.set(row.id,
(scores.get(row.id) ?? 0) + w / (k + i + 1))`) and unconditionally records the
content (`contentMap.set(row.id, row.content)`). -/
def fusePass (w k : ℚ) : List Row → ℚ → List (ℤ × ℚ) × List (ℤ × String) →
    List (ℤ × ℚ) × List (ℤ × String)
  | [], _, st => st
  | row :: rest, r, (scores, contentMap) =>
      fusePass w k rest (r + 1)
        (mapSet scores row.id ((mapGet scores row.id).getD 0 + w / (k + r)),
         mapSet contentMap row.id row.content)

/-- The score map after both passes of `rrfFusion` (keyword pass first with
weight `wk`, then semantic pass with weight `ws`). -/
def fusedScores (wk ws k : ℚ) (keywordResults semanticResults : List Row) :
    List (ℤ × ℚ) :=
  (fusePass ws k semanticResults 1
    (fusePass wk k keywordResults 1 ([], []))).1

/-- The content map after both passes of `rrfFusion`. -/
def fusedContent (wk ws k : ℚ) (keywordResults semanticResults : List Row) :
    List (ℤ × String) :=
  (fusePass ws k semanticResults 1
    (fusePass wk k keywordResults 1 ([], []))).2

/-- Insert `x` into a list keeping elements `y` with `p y x` before it; with a
strict precedence predicate `p` this is the insertion step of a stable sort. -/
def insertBy {α : Type} (p : α → α → Bool) (x : α) : List α → List α
  | [] => [x]
  | y :: ys => if p y x then y :: insertBy p x ys else x :: y :: ys

/-- Stable insertion sort with strict precedence predicate `p`. -/
def sortBy {α : Type} (p : α → α → Bool) : List α → List α
  | [] => []
  | x :: xs => insertBy p x (sortBy p xs)

/-- The comparator of `rrfFusion`: `.sort((a, b) => b[1] - a[1])`, i.e. entry
`a` strictly precedes entry `b` exactly when `a` has the larger score; ECMA
stable sort keeps insertion order on ties. -/
def scoreDescBefore (a b : ℤ × ℚ) : Bool :=
  decide (b.2 < a.2)

/-- The weighted client-side RRF fusion from SKILL.md: the two score loops of
the weighting snippet combined with the sort / slice / contentMap lookup of
`rrfFusion`.  `limit` models the nonnegative `slice(0, limit)` bound. -/
def rrfFusionW (wk ws : ℚ) (keywordResults semanticResults : List Row)
    (k : ℚ) (limit : ℕ) : List Result :=
  let scores := fusedScores wk ws k keywordResults semanticResults
  let contentMap := fusedContent wk ws k keywordResults semanticResults
  ((sortBy scoreDescBefore scores).take limit).map
    (fun e => ⟨e.1, (mapGet contentMap e.1).getD "", e.2⟩)

/-- `function rrfFusion(keywordResults, semanticResults, k = 60, limit = 10)`:
the unweighted snippet, i.e. both weights 1. -/
def rrfFusion (keywordResults semanticResults : List Row)
    (k : ℚ := 60) (limit : ℕ := 10) : List Result :=
  rrfFusionW 1 1 keywordResults semanticResults k limit

/-- Total RRF score contribution of id `i` from one list processed with weight
`w`, smoothing `k` and first rank `r`. -/
def contrib (w k : ℚ) : List Row → ℚ → ℤ → ℚ
  | [], _, _ => 0
  | row :: rest, r, i =>
      (if row.id = i then w / (k + r) else 0) + contrib w k rest (r + 1) i

/-- Content of the last occurrence of id `i` in a list (the value a
last-writer-wins content map holds for `i` after processing the list). -/
def lastAssoc : List Row → ℤ → Option String
  | [], _ => none
  | row :: rest, i =>
      (lastAssoc rest i).orElse
        (fun _ => if row.id = i then some row.content else none)

/-! ### The RankFuser contract modelled from the specification

The snippets in SKILL.md implement fusion without argument validation, without
a deterministic tie-break and with last-writer-wins content.  The
specification adds those as the RankFuser contract; the definitions below
model the missing parts from the words of the specification. -/

/-- Weights of the two retrieval methods. -/
structure Weights where
  keyword : ℚ
  semantic : ℚ
deriving Repr, DecidableEq

/-- Error taxonomy of RankFuser: only `InvalidArgument` exists. -/
inductive FuseError where
  | invalidArgument
deriving Repr, DecidableEq

/-- 1-based rank of the first occurrence of id `i`, starting the count at
`r`. -/
def rankOf : List Row → ℤ → ℕ → Option ℕ
  | [], _, _ => none
  | row :: rest, i, r => if row.id = i then some r else rankOf rest i (r + 1)

/-- 1-based rank of id `i` in the semantic list, if present. -/
def semRank (rows : List Row) (i : ℤ) : Option ℕ :=
  rankOf rows i 1

/-- Position of the first occurrence of id `i` in a list of ids (the original
encounter order of the tie-break rule). -/
def firstIdx : List ℤ → ℤ → ℕ
  | [], _ => 0
  | j :: rest, i => if j = i then 0 else firstIdx rest i + 1

/-- Sort key of the specification: descending score, then ascending semantic
rank with absent ids last, then ascending first-encounter position. -/
def sortKey (sem : List Row) (allIds : List ℤ) (e : ℤ × ℚ) : ℚ × ℕ × ℕ :=
  (-e.2, (semRank sem e.1).getD (sem.length + 1), firstIdx allIds e.1)

/-- Strict lexicographic order on sort keys. -/
def keyLtP (a b : ℚ × ℕ × ℕ) : Prop :=
  a.1 < b.1 ∨
    (a.1 = b.1 ∧ (a.2.1 < b.2.1 ∨ (a.2.1 = b.2.1 ∧ a.2.2 < b.2.2)))

instance (a b : ℚ × ℕ × ℕ) : Decidable (keyLtP a b) :=
  inferInstanceAs (Decidable (_ ∨ _))

/-- The strict precedence used by the specified sort of RankFuser. -/
def specBefore (sem : List Row) (allIds : List ℤ) (a b : ℤ × ℚ) : Bool :=
  decide (keyLtP (sortKey sem allIds a) (sortKey sem allIds b))

/-- First-writer-wins map update: record the content only when the id entry is
absent. -/
def mapSetFirst (m : List (ℤ × String)) (i : ℤ) (v : String) :
    List (ℤ × String) :=
  match mapGet m i with
  | some _ => m
  | none => m ++ [(i, v)]

/-- One pass recording content first-writer-wins. -/
def contentFirstPass : List Row → List (ℤ × String) → List (ℤ × String)
  | [], cmap => cmap
  | row :: rest, cmap => contentFirstPass rest (mapSetFirst cmap row.id row.content)

/-- The first-writer-wins content map of the specification (keyword list
first, then semantic list). -/
def firstContent (kw sem : List Row) : List (ℤ × String) :=
  contentFirstPass sem (contentFirstPass kw [])

/-- The tie-break order required by the specification for two fused results of
equal score: smaller semantic rank first when both ids are in the semantic
list, otherwise semantic-present before semantic-absent, otherwise original
encounter order. -/
def tieOk (sem : List Row) (allIds : List ℤ) (a b : Result) : Prop :=
  match semRank sem a.id, semRank sem b.id with
  | some ra, some rb => ra ≤ rb
  | some _, none => True
  | none, some _ => False
  | none, none => firstIdx allIds a.id ≤ firstIdx allIds b.id

/-- Modelled from the spec: the RankFuser operation
`fuse(keywordResults, semanticResults, k, weights, limit)` of section 4.1,
whose validation, tie-break rule and first-writer-wins content are absent from
the snippets under src.  It fails with `InvalidArgument` when `k <= 0`, a
weight is negative or `limit < 0`; otherwise it accumulates
`weights.method / (k + rank)` per id, sorts descending by score with the
deterministic tie-break and truncates to `limit`. -/
def fuse (keywordResults semanticResults : List Row) (k : ℚ)
    (weights : Weights) (limit : ℤ) : Except FuseError (List Result) :=
  if k ≤ 0 ∨ weights.keyword < 0 ∨ weights.semantic < 0 ∨ limit < 0 then
    .error .invalidArgument
  else
    let scores := fusedScores weights.keyword weights.semantic k
      keywordResults semanticResults
    let contentMap := firstContent keywordResults semanticResults
    let allIds := keywordResults.map Row.id ++ semanticResults.map Row.id
    let sorted := sortBy (specBefore semanticResults allIds) scores
    .ok ((sorted.take limit.toNat).map
      (fun e => ⟨e.1, (mapGet contentMap e.1).getD "", e.2⟩))

/-! ### The search_docs tool from src/apis/searchDocs.ts

External collaborators (the embedding model, JSON serialization and the
database pool) are modelled as oracle functions in the server context, and
the calls issued to them are recorded explicitly. -/

/-- The zod enum of documentation sources: tiger or postgres. -/
inductive Source where
  | tiger
  | postgres
deriving Repr, DecidableEq

/-- The zod enum of search types: semantic or keyword. -/
inductive SearchType where
  | semantic
  | keyword
deriving Repr, DecidableEq

/-- The zod enum of versions: the pg_versions plus latest. -/
inductive Version where
  | v14
  | v15
  | v16
  | v17
  | v18
  | latest
deriving Repr, DecidableEq

/-- `const latest_pg_version = pg_versions.at(-1)`, i.e. the string 18. -/
def latest_pg_version : String := "18"

/-- The string a `Version` takes after the ternary resolution that maps
latest to latest_pg_version and keeps any other version. -/
def versionParam : Version → String
  | .v14 => "14"
  | .v15 => "15"
  | .v16 => "16"
  | .v17 => "17"
  | .v18 => "18"
  | .latest => latest_pg_version

/-- A parameter of a parameterized SQL query. -/
inductive Param where
  | str (s : String)
  | num (n : ℤ)
deriving Repr, DecidableEq

/-- The four SQL templates of search_docs (schema interpolated). -/
inductive SqlQuery where
  | semanticTiger (schema : String)
  | semanticPostgres (schema : String)
  | keywordTiger (schema : String)
  | keywordPostgres (schema : String)
deriving Repr, DecidableEq

/-- An external call issued by the tool: either the embedding request or a
database query with its parameter array. -/
inductive ExtCall where
  | embedCall (model : String) (value : String)
  | dbQuery (q : SqlQuery) (params : List Param)
deriving Repr, DecidableEq

/-- A row returned by the documentation queries (`relevance` holds the
distance of semantic rows or the score of keyword rows). -/
structure DocRow where
  id : ℤ
  content : String
  metadata : String
  relevance : ℚ
deriving Repr, DecidableEq

/-- The server context `{ pgPool, schema }` with the external collaborators as
oracles. -/
structure ServerContext where
  schema : String
  dbRows : SqlQuery → List Param → List DocRow
  embedVec : String → List ℚ
  toJson : List ℚ → String

/-- The input of the search_docs tool. -/
structure SearchDocsInput where
  source : Source
  search_type : SearchType
  query : String
  version : Version
  limit : ℤ
deriving Repr

/-- Model of JavaScript String.prototype.trim: strip leading and trailing
whitespace characters. -/
def jsTrim (s : String) : String :=
  ⟨((s.data.dropWhile Char.isWhitespace).reverse.dropWhile
      Char.isWhitespace).reverse⟩

/-- The `fn` of `searchDocsFactory`: returns the external calls it issued and
either the thrown error message or the result rows.  It substitutes
`limit = passedLimit > 0 ? passedLimit : 10`, throws on a blank query (the
`!query.trim()` check) before any external call, resolves the version, and
issues the embedding call (for semantic search) and one parameterized query
per source/search_type pair. -/
def searchDocs (ctx : ServerContext) (inp : SearchDocsInput) :
    List ExtCall × Except String (List DocRow) :=
  let limit := if inp.limit > 0 then inp.limit else 10
  if jsTrim inp.query = "" then
    ([], .error "Query must be a non-empty string.")
  else
    let version := versionParam inp.version
    match inp.search_type with
    | .semantic =>
      let embedding := ctx.embedVec inp.query
      let ec := ExtCall.embedCall "text-embedding-3-small" inp.query
      match inp.source with
      | .tiger =>
        let q := SqlQuery.semanticTiger ctx.schema
        let params := [Param.str (ctx.toJson embedding), Param.num limit]
        ([ec, ExtCall.dbQuery q params], .ok (ctx.dbRows q params))
      | .postgres =>
        let q := SqlQuery.semanticPostgres ctx.schema
        let params := [Param.str (ctx.toJson embedding), Param.str version,
          Param.num limit]
        ([ec, ExtCall.dbQuery q params], .ok (ctx.dbRows q params))
    | .keyword =>
      match inp.source with
      | .tiger =>
        let q := SqlQuery.keywordTiger ctx.schema
        let params := [Param.str inp.query, Param.num limit]
        ([ExtCall.dbQuery q params], .ok (ctx.dbRows q params))
      | .postgres =>
        let q := SqlQuery.keywordPostgres ctx.schema
        let params := [Param.str inp.query, Param.str version,
          Param.num limit]
        ([ExtCall.dbQuery q params], .ok (ctx.dbRows q params))

/-- The `LIMIT` argument of a recorded database call (the last element of the
parameter array in all four templates). -/
def callLimit : ExtCall → Option ℤ
  | .embedCall _ _ => none
  | .dbQuery _ params =>
      match params.getLast? with
      | some (.num n) => some n
      | _ => none

/-! ### Association-list map lemmas -/

theorem mapGet_mapSet {α : Type} (m : List (ℤ × α)) (i j : ℤ) (v : α) :
    mapGet (mapSet m i v) j = if j = i then some v else mapGet m j := by
  induction m with
  | nil =>
    rcases eq_or_ne j i with hj | hj
    · subst hj; simp [mapSet, mapGet]
    · simp [mapSet, mapGet, hj, (Ne.symm hj)]
  | cons hd tl ih =>
    obtain ⟨k0, v0⟩ := hd
    rcases eq_or_ne k0 i with hk | hk
    · subst hk
      rcases eq_or_ne j k0 with hj | hj
      · subst hj; simp [mapSet, mapGet]
      · simp [mapSet, mapGet, hj, (Ne.symm hj)]
    · rcases eq_or_ne j i with hj | hj
      · subst hj
        have hkj : k0 ≠ j := fun h => hk h
        simp [mapSet, mapGet, hk, hkj, ih]
      · rcases eq_or_ne k0 j with hkj | hkj
        · subst hkj
          simp [mapSet, mapGet, hk, hj]
        · simp [mapSet, mapGet, hk, hj, hkj, ih]

theorem keys_mapSet {α : Type} (m : List (ℤ × α)) (i : ℤ) (v : α) :
    (mapSet m i v).map Prod.fst =
      if i ∈ m.map Prod.fst then m.map Prod.fst
      else m.map Prod.fst ++ [i] := by
  induction m with
  | nil => simp [mapSet]
  | cons hd tl ih =>
    obtain ⟨k0, v0⟩ := hd
    by_cases hk : k0 = i
    · subst hk
      simp [mapSet]
    · by_cases hm : i ∈ tl.map Prod.fst <;>
        simp [mapSet, hk, Ne.symm hk, hm, ih]

theorem mem_keys_mapSet {α : Type} (m : List (ℤ × α)) (i j : ℤ) (v : α) :
    j ∈ (mapSet m i v).map Prod.fst ↔ j ∈ m.map Prod.fst ∨ j = i := by
  rw [keys_mapSet]
  by_cases hm : i ∈ m.map Prod.fst
  · simp only [hm, if_pos]
    constructor
    · exact fun h => Or.inl h
    · rintro (h | rfl)
      · exact h
      · exact hm
  · simp [hm]

theorem nodup_keys_mapSet {α : Type} (m : List (ℤ × α)) (i : ℤ) (v : α)
    (h : (m.map Prod.fst).Nodup) : ((mapSet m i v).map Prod.fst).Nodup := by
  rw [keys_mapSet]
  by_cases hm : i ∈ m.map Prod.fst
  · simpa [hm] using h
  · rw [if_neg hm]
    refine List.Nodup.append h (List.nodup_singleton i) ?_
    intro a ha hai
    rw [List.mem_singleton] at hai
    subst hai
    exact hm ha

/-! ### Contribution lemmas -/

theorem contrib_eq_zero (w k : ℚ) (rows : List Row) (r : ℚ) (i : ℤ)
    (h : i ∉ rows.map Row.id) : contrib w k rows r i = 0 := by
  induction rows generalizing r with
  | nil => simp [contrib]
  | cons row rest ih =>
    simp only [List.map_cons, List.mem_cons] at h
    push_neg at h
    simp [contrib, Ne.symm h.1, ih _ h.2]

theorem contrib_smul (w k : ℚ) (rows : List Row) (r : ℚ) (i : ℤ) :
    contrib w k rows r i = w * contrib 1 k rows r i := by
  induction rows generalizing r with
  | nil => simp [contrib]
  | cons row rest ih =>
    by_cases hid : row.id = i <;>
      simp [contrib, hid, ih (r + 1), mul_add, div_eq_mul_inv]

theorem contrib_one_nonneg (k : ℚ) (rows : List Row) (r : ℚ) (i : ℤ)
    (hk : 0 < k) (hr : 0 < r) : 0 ≤ contrib 1 k rows r i := by
  induction rows generalizing r with
  | nil => simp [contrib]
  | cons row rest ih =>
    have hkr : 0 < k + r := by linarith
    have h1 : (0 : ℚ) ≤ (k + r)⁻¹ := by positivity
    have h2 : 0 ≤ contrib 1 k rest (r + 1) i := ih (r + 1) (by linarith)
    by_cases hid : row.id = i <;> simp [contrib, hid, one_div] <;> linarith

/-! ### Characterization of the two fusion passes -/

theorem fusePass_fst_get (w k : ℚ) (rows : List Row) (r : ℚ)
    (s : List (ℤ × ℚ)) (c : List (ℤ × String)) (i : ℤ) :
    mapGet (fusePass w k rows r (s, c)).1 i =
      if i ∈ rows.map Row.id
      then some ((mapGet s i).getD 0 + contrib w k rows r i)
      else mapGet s i := by
  induction rows generalizing r s c with
  | nil => simp [fusePass, contrib]
  | cons row rest ih =>
    simp only [fusePass]
    rw [ih, mapGet_mapSet]
    rcases eq_or_ne i row.id with hid | hid
    · rw [if_pos hid]
      have hc : contrib w k (row :: rest) r i
          = w / (k + r) + contrib w k rest (r + 1) i := by
        simp only [contrib]
        rw [if_pos hid.symm]
      have hgd : mapGet s row.id = mapGet s i := by rw [hid]
      by_cases hmem : i ∈ rest.map Row.id
      · have h1 : i ∈ (row :: rest).map Row.id := by simp [hmem]
        rw [if_pos hmem, if_pos h1, hc, hgd]
        simp [add_assoc]
      · have h1 : i ∈ (row :: rest).map Row.id := by
          simp only [List.map_cons, List.mem_cons]
          exact Or.inl hid
        rw [if_neg hmem, if_pos h1, hc,
          contrib_eq_zero w k rest (r + 1) i hmem, hgd]
        simp
    · rw [if_neg hid]
      have hc : contrib w k (row :: rest) r i = contrib w k rest (r + 1) i := by
        simp only [contrib]
        rw [if_neg (fun h => hid h.symm)]
        ring
      have hmm : (i ∈ (row :: rest).map Row.id) ↔ i ∈ rest.map Row.id := by
        simp only [List.map_cons, List.mem_cons]
        constructor
        · rintro (h | h)
          · exact absurd h hid
          · exact h
        · exact Or.inr
      by_cases hmem : i ∈ rest.map Row.id
      · rw [if_pos hmem, if_pos (hmm.mpr hmem), hc]
      · rw [if_neg hmem, if_neg (fun h => hmem (hmm.mp h))]

theorem fusePass_snd_get (w k : ℚ) (rows : List Row) (r : ℚ)
    (s : List (ℤ × ℚ)) (c : List (ℤ × String)) (i : ℤ) :
    mapGet (fusePass w k rows r (s, c)).2 i =
      (lastAssoc rows i).orElse (fun _ => mapGet c i) := by
  induction rows generalizing r s c with
  | nil => simp [fusePass, lastAssoc, Option.orElse]
  | cons row rest ih =>
    simp only [fusePass, lastAssoc]
    rw [ih, mapGet_mapSet]
    cases hla : lastAssoc rest i with
    | some v => simp [Option.orElse]
    | none =>
      rcases eq_or_ne i row.id with hid | hid
      · rw [if_pos hid, if_pos hid.symm]
        simp [Option.orElse]
      · rw [if_neg hid, if_neg (fun h => hid h.symm)]
        simp [Option.orElse]

theorem fusedScores_get (wk ws k : ℚ) (kw sem : List Row) (i : ℤ) :
    mapGet (fusedScores wk ws k kw sem) i =
      if i ∈ kw.map Row.id ∨ i ∈ sem.map Row.id
      then some (contrib wk k kw 1 i + contrib ws k sem 1 i)
      else none := by
  unfold fusedScores
  have h1 : fusePass wk k kw 1 (([], []) : List (ℤ × ℚ) × List (ℤ × String))
      = ((fusePass wk k kw 1 ([], [])).1, (fusePass wk k kw 1 ([], [])).2) := rfl
  rw [h1, fusePass_fst_get, fusePass_fst_get]
  simp only [mapGet]
  by_cases hs : i ∈ sem.map Row.id
  · by_cases hk2 : i ∈ kw.map Row.id
    · simp [hs, hk2]
    · simp [hs, hk2, contrib_eq_zero wk k kw 1 i hk2]
  · by_cases hk2 : i ∈ kw.map Row.id
    · simp [hs, hk2, contrib_eq_zero ws k sem 1 i hs]
    · simp [hs, hk2]

theorem fusedContent_get (wk ws k : ℚ) (kw sem : List Row) (i : ℤ) :
    mapGet (fusedContent wk ws k kw sem) i =
      (lastAssoc sem i).orElse (fun _ => lastAssoc kw i) := by
  unfold fusedContent
  have h1 : fusePass wk k kw 1 (([], []) : List (ℤ × ℚ) × List (ℤ × String))
      = ((fusePass wk k kw 1 ([], [])).1, (fusePass wk k kw 1 ([], [])).2) := rfl
  rw [h1, fusePass_snd_get, fusePass_snd_get]
  cases hs : lastAssoc sem i with
  | some v => simp [Option.orElse]
  | none => cases hk2 : lastAssoc kw i <;> simp [Option.orElse, mapGet]

theorem mem_keys_fusePass (w k : ℚ) (rows : List Row) (r : ℚ)
    (s : List (ℤ × ℚ)) (c : List (ℤ × String)) (j : ℤ) :
    j ∈ (fusePass w k rows r (s, c)).1.map Prod.fst ↔
      j ∈ s.map Prod.fst ∨ j ∈ rows.map Row.id := by
  induction rows generalizing r s c with
  | nil => simp [fusePass]
  | cons row rest ih =>
    simp only [fusePass]
    rw [ih]
    rw [mem_keys_mapSet]
    simp only [List.map_cons, List.mem_cons]
    tauto

theorem nodup_keys_fusePass (w k : ℚ) (rows : List Row) (r : ℚ)
    (s : List (ℤ × ℚ)) (c : List (ℤ × String))
    (h : (s.map Prod.fst).Nodup) :
    ((fusePass w k rows r (s, c)).1.map Prod.fst).Nodup := by
  induction rows generalizing r s c with
  | nil => exact h
  | cons row rest ih =>
    simp only [fusePass]
    exact ih _ _ _ (nodup_keys_mapSet _ _ _ h)

theorem mem_keys_fusedScores (wk ws k : ℚ) (kw sem : List Row) (j : ℤ) :
    j ∈ (fusedScores wk ws k kw sem).map Prod.fst ↔
      j ∈ kw.map Row.id ∨ j ∈ sem.map Row.id := by
  unfold fusedScores
  have h1 : fusePass wk k kw 1 (([], []) : List (ℤ × ℚ) × List (ℤ × String))
      = ((fusePass wk k kw 1 ([], [])).1, (fusePass wk k kw 1 ([], [])).2) := rfl
  rw [h1, mem_keys_fusePass, mem_keys_fusePass]
  simp

theorem nodup_keys_fusedScores (wk ws k : ℚ) (kw sem : List Row) :
    ((fusedScores wk ws k kw sem).map Prod.fst).Nodup := by
  unfold fusedScores
  have h1 : fusePass wk k kw 1 (([], []) : List (ℤ × ℚ) × List (ℤ × String))
      = ((fusePass wk k kw 1 ([], [])).1, (fusePass wk k kw 1 ([], [])).2) := rfl
  rw [h1]
  exact nodup_keys_fusePass _ _ _ _ _ _
    (nodup_keys_fusePass _ _ _ _ _ _ (by simp))

/-! ### Sorting lemmas -/

theorem insertBy_perm {α : Type} (p : α → α → Bool) (x : α) (l : List α) :
    (insertBy p x l).Perm (x :: l) := by
  induction l with
  | nil => simp [insertBy]
  | cons y ys ih =>
    by_cases hp : p y x
    · simp only [insertBy, hp, if_pos]
      exact (ih.cons y).trans (List.Perm.swap x y ys)
    · simp [insertBy, hp]

theorem sortBy_perm {α : Type} (p : α → α → Bool) (l : List α) :
    (sortBy p l).Perm l := by
  induction l with
  | nil => simp [sortBy]
  | cons x xs ih =>
    exact (insertBy_perm p x (sortBy p xs)).trans (ih.cons x)

theorem mem_insertBy {α : Type} (p : α → α → Bool) (x z : α) (l : List α) :
    z ∈ insertBy p x l ↔ z = x ∨ z ∈ l := by
  rw [(insertBy_perm p x l).mem_iff, List.mem_cons]

theorem insertBy_pairwise {α : Type} (p : α → α → Bool)
    (hasymm : ∀ a b, p a b = true → p b a = false)
    (hnegtrans : ∀ a b c, p a b = false → p b c = false → p a c = false)
    (x : α) (l : List α) (hl : l.Pairwise (fun a b => p b a = false)) :
    (insertBy p x l).Pairwise (fun a b => p b a = false) := by
  induction l with
  | nil => simp [insertBy]
  | cons y ys ih =>
    rw [List.pairwise_cons] at hl
    obtain ⟨hy, hys⟩ := hl
    by_cases hp : p y x
    · simp only [insertBy, hp, if_pos]
      rw [List.pairwise_cons]
      constructor
      · intro z hz
        rcases (mem_insertBy p x z ys).mp hz with rfl | hz2
        · exact hasymm y z hp
        · exact hy z hz2
      · exact ih hys
    · have hp2 : p y x = false := by
        cases h2 : p y x
        · rfl
        · exact absurd h2 hp
      simp only [insertBy, hp, if_neg, Bool.false_eq_true, not_false_iff]
      rw [List.pairwise_cons]
      constructor
      · intro z hz
        rcases List.mem_cons.mp hz with rfl | hz2
        · exact hp2
        · exact hnegtrans z y x (hy z hz2) hp2
      · rw [List.pairwise_cons]
        exact ⟨hy, hys⟩

theorem sortBy_pairwise {α : Type} (p : α → α → Bool)
    (hasymm : ∀ a b, p a b = true → p b a = false)
    (hnegtrans : ∀ a b c, p a b = false → p b c = false → p a c = false)
    (l : List α) : (sortBy p l).Pairwise (fun a b => p b a = false) := by
  induction l with
  | nil => simp [sortBy]
  | cons x xs ih => exact insertBy_pairwise p hasymm hnegtrans x (sortBy p xs) ih

/-! ### Lexicographic key lemmas -/

theorem keyLtP_asymm (a b : ℚ × ℕ × ℕ) (h : keyLtP a b) : ¬ keyLtP b a := by
  unfold keyLtP at *
  rcases h with h1 | ⟨h1, h2 | ⟨h2, h3⟩⟩ <;>
    rintro (g1 | ⟨g1, g2 | ⟨g2, g3⟩⟩) <;> linarith

theorem keyLtP_negtrans (a b c : ℚ × ℕ × ℕ)
    (hab : ¬ keyLtP a b) (hbc : ¬ keyLtP b c) : ¬ keyLtP a c := by
  unfold keyLtP at *
  push_neg at hab hbc
  obtain ⟨hab1, hab2⟩ := hab
  obtain ⟨hbc1, hbc2⟩ := hbc
  rintro (h1 | ⟨h1, h2 | ⟨h2, h3⟩⟩)
  · linarith
  all_goals {
    have hab1e : a.1 = b.1 := by linarith
    have hbc1e : b.1 = c.1 := by linarith
    obtain ⟨hab3, hab4⟩ := hab2 hab1e
    obtain ⟨hbc3, hbc4⟩ := hbc2 hbc1e
    omega
  }

/-! ### Rank and last-content helpers -/

theorem rankOf_le (rows : List Row) (i : ℤ) (r0 r : ℕ)
    (h : rankOf rows i r0 = some r) : r < r0 + rows.length := by
  induction rows generalizing r0 with
  | nil => simp [rankOf] at h
  | cons row rest ih =>
    simp only [rankOf] at h
    by_cases hid : row.id = i
    · rw [if_pos hid] at h
      injection h with h
      subst h
      simp only [List.length_cons]
      omega
    · rw [if_neg hid] at h
      have h2 := ih (r0 + 1) h
      simp only [List.length_cons]
      omega

theorem semRank_le (rows : List Row) (i : ℤ) (r : ℕ)
    (h : semRank rows i = some r) : r ≤ rows.length := by
  have h2 := rankOf_le rows i 1 r h
  omega

theorem lastAssoc_isSome_of_mem (rows : List Row) (i : ℤ)
    (h : i ∈ rows.map Row.id) : ∃ cnt, lastAssoc rows i = some cnt := by
  induction rows with
  | nil => simp at h
  | cons row rest ih =>
    simp only [List.map_cons, List.mem_cons] at h
    simp only [lastAssoc]
    rcases h with h | h
    · cases hla : lastAssoc rest i with
      | some v => exact ⟨v, by simp [Option.orElse]⟩
      | none => exact ⟨row.content, by simp [Option.orElse, h.symm]⟩
    · obtain ⟨cnt, hcnt⟩ := ih h
      exact ⟨cnt, by simp [hcnt, Option.orElse]⟩

/-- Every member of the fused output is built from an entry of the score map,
with its content looked up in the content map. -/
theorem mem_rrfFusionW (wk ws : ℚ) (kw sem : List Row) (k : ℚ) (limit : ℕ)
    (r : Result) (h : r ∈ rrfFusionW wk ws kw sem k limit) :
    ∃ e, e ∈ fusedScores wk ws k kw sem ∧ r.id = e.1 ∧ r.score = e.2 ∧
      r.content = (mapGet (fusedContent wk ws k kw sem) e.1).getD "" := by
  unfold rrfFusionW at h
  simp only [List.mem_map] at h
  obtain ⟨e, he, rfl⟩ := h
  have he2 : e ∈ sortBy scoreDescBefore (fusedScores wk ws k kw sem) :=
    List.mem_of_mem_take he
  have he3 : e ∈ fusedScores wk ws k kw sem :=
    (sortBy_perm scoreDescBefore _).mem_iff.mp he2
  exact ⟨e, he3, rfl, rfl, rfl⟩

/-! ### Claim theorems -/

/-- C1: on the concrete inputs keywordResults = [(1, r1), (2, r2)] and
semanticResults = [(2, r1), (3, r2)] with k = 60, equal weights 1, limit 10,
fusion returns exactly three results ordered id 2, id 1, id 3 with scores
1/62 + 1/61, 1/61 and 1/62; the same holds for the specified RankFuser. -/
theorem c1_concrete_scenario :
    rrfFusionW 1 1 [⟨1, "d1"⟩, ⟨2, "d2"⟩] [⟨2, "d2"⟩, ⟨3, "d3"⟩] 60 10 =
      [⟨2, "d2", 1/62 + 1/61⟩, ⟨1, "d1", 1/61⟩, ⟨3, "d3", 1/62⟩] ∧
    fuse [⟨1, "d1"⟩, ⟨2, "d2"⟩] [⟨2, "d2"⟩, ⟨3, "d3"⟩] 60 ⟨1, 1⟩ 10 =
      .ok [⟨2, "d2", 1/62 + 1/61⟩, ⟨1, "d1", 1/61⟩, ⟨3, "d3", 1/62⟩] := by
  constructor
  · norm_num [rrfFusionW, fusedScores, fusedContent, fusePass, mapGet, mapSet,
      sortBy, insertBy, scoreDescBefore]
  · norm_num [fuse, fusedScores, fusePass, mapGet, mapSet, firstContent,
      contentFirstPass, mapSetFirst, sortBy, insertBy, specBefore, sortKey,
      semRank, rankOf, firstIdx, keyLtP]

/-- C2 counterexample: with keywordResults = [(1, "a")] and
semanticResults = [(1, "b")], the source fusion returns content "b" for id 1 -
the content recorded in the first pass IS overwritten by the second pass, so
the output content is not the content supplied by the first list. -/
theorem c2_counterexample :
    rrfFusionW 1 1 [⟨1, "a"⟩] [⟨1, "b"⟩] 60 10 = [⟨1, "b", 1/61 + 1/61⟩] ∧
    "b" ≠ "a" := by
  constructor
  · norm_num [rrfFusionW, fusedScores, fusedContent, fusePass, mapGet, mapSet,
      sortBy, insertBy, scoreDescBefore]
  · decide

/-- C2 amended: the content of a fused result whose id appears in
semanticResults is the content supplied by semanticResults (the second pass
overwrites: last-writer-wins). -/
theorem c2_content_last_writer_wins (wk ws : ℚ) (kw sem : List Row) (k : ℚ)
    (limit : ℕ) (r : Result) (h : r ∈ rrfFusionW wk ws kw sem k limit)
    (hsem : r.id ∈ sem.map Row.id) :
    lastAssoc sem r.id = some r.content := by
  obtain ⟨e, _, hid, _, hcnt⟩ := mem_rrfFusionW wk ws kw sem k limit r h
  obtain ⟨cnt, hc⟩ := lastAssoc_isSome_of_mem sem r.id hsem
  rw [hid] at hc
  rw [hid, hc, hcnt, fusedContent_get, hc]
  simp [Option.orElse]

/-- C2 amended witness at the counterexample input. -/
theorem c2_content_last_writer_wins_witness :
    ((⟨1, "b", 1/61 + 1/61⟩ : Result) ∈ rrfFusionW 1 1 [⟨1, "a"⟩] [⟨1, "b"⟩] 60 10) ∧
    ((1 : ℤ) ∈ ([⟨1, "b"⟩] : List Row).map Row.id) ∧
    lastAssoc [⟨1, "b"⟩] 1 = some "b" := by
  have hmem : (⟨1, "b", 1/61 + 1/61⟩ : Result) ∈
      rrfFusionW 1 1 [⟨1, "a"⟩] [⟨1, "b"⟩] 60 10 := by
    rw [c2_counterexample.1]
    simp
  have hid : (1 : ℤ) ∈ ([⟨1, "b"⟩] : List Row).map Row.id := by simp
  exact ⟨hmem, hid,
    c2_content_last_writer_wins 1 1 [⟨1, "a"⟩] [⟨1, "b"⟩] 60 10 _ hmem hid⟩

/-- C5: with positive weights and a limit at least the number of distinct ids,
the ids of the fused output are exactly the union of the input ids, and no id
appears twice. -/
theorem c5_union_coverage (wk ws : ℚ) (kw sem : List Row) (k : ℚ) (limit : ℕ)
    (hwk : 0 < wk) (hws : 0 < ws)
    (hlimit : ((kw.map Row.id ++ sem.map Row.id).dedup).length ≤ limit) :
    (∀ i, i ∈ (rrfFusionW wk ws kw sem k limit).map Result.id ↔
      i ∈ kw.map Row.id ∨ i ∈ sem.map Row.id) ∧
    ((rrfFusionW wk ws kw sem k limit).map Result.id).Nodup := by
  have keysNodup := nodup_keys_fusedScores wk ws k kw sem
  have keysMem := mem_keys_fusedScores wk ws k kw sem
  have hperm : ((fusedScores wk ws k kw sem).map Prod.fst).Perm
      ((kw.map Row.id ++ sem.map Row.id).dedup) := by
    refine (List.perm_ext_iff_of_nodup keysNodup (List.nodup_dedup _)).mpr ?_
    intro a
    rw [keysMem a, List.mem_dedup, List.mem_append]
  have hlen : (fusedScores wk ws k kw sem).length ≤ limit := by
    have h1 : ((fusedScores wk ws k kw sem).map Prod.fst).length =
        ((kw.map Row.id ++ sem.map Row.id).dedup).length := hperm.length_eq
    rw [List.length_map] at h1
    omega
  have hsortlen : (sortBy scoreDescBefore (fusedScores wk ws k kw sem)).length
      ≤ limit := by
    rw [(sortBy_perm scoreDescBefore _).length_eq]
    exact hlen
  have htake : (sortBy scoreDescBefore (fusedScores wk ws k kw sem)).take limit
      = sortBy scoreDescBefore (fusedScores wk ws k kw sem) :=
    List.take_of_length_le hsortlen
  have hids : (rrfFusionW wk ws kw sem k limit).map Result.id =
      (sortBy scoreDescBefore (fusedScores wk ws k kw sem)).map Prod.fst := by
    simp only [rrfFusionW]
    rw [htake, List.map_map]
    rfl
  have hperm2 : ((rrfFusionW wk ws kw sem k limit).map Result.id).Perm
      ((fusedScores wk ws k kw sem).map Prod.fst) := by
    rw [hids]
    exact (sortBy_perm scoreDescBefore _).map Prod.fst
  constructor
  · intro i
    rw [hperm2.mem_iff, keysMem i]
  · exact hperm2.nodup_iff.mpr keysNodup

/-- C5 witness at a concrete input. -/
theorem c5_union_coverage_witness :
    (0 : ℚ) < 1 ∧
    ((([⟨1, "a"⟩] : List Row).map Row.id ++
        ([⟨2, "b"⟩] : List Row).map Row.id).dedup).length ≤ 10 ∧
    ((rrfFusionW 1 1 [⟨1, "a"⟩] [⟨2, "b"⟩] 60 10).map Result.id).Nodup := by
  refine ⟨by norm_num, by decide, ?_⟩
  exact (c5_union_coverage 1 1 [⟨1, "a"⟩] [⟨2, "b"⟩] 60 10 (by norm_num)
    (by norm_num) (by decide)).2

/-- C7: with equal weights, swapping which list is keyword and which is
semantic yields an identical fused score for every id. -/
theorem c7_commutativity (wk ws k : ℚ) (kw sem : List Row)
    (h : wk = ws) (i : ℤ) :
    mapGet (fusedScores wk ws k kw sem) i =
      mapGet (fusedScores wk ws k sem kw) i := by
  subst h
  rw [fusedScores_get, fusedScores_get]
  by_cases hm : i ∈ kw.map Row.id ∨ i ∈ sem.map Row.id
  · rw [if_pos hm, if_pos hm.symm, add_comm]
  · rw [if_neg hm, if_neg (fun h2 => hm h2.symm)]

/-- C7 witness at a concrete input. -/
theorem c7_commutativity_witness :
    (1 : ℚ) = 1 ∧
    mapGet (fusedScores 1 1 60 [⟨1, "a"⟩] []) 1 =
      mapGet (fusedScores 1 1 60 [] [⟨1, "a"⟩]) 1 :=
  ⟨rfl, c7_commutativity 1 1 60 [⟨1, "a"⟩] [] rfl 1⟩

/-- C8: for fixed k > 0, fixed lists and fixed keyword weight, raising the
semantic weight never lowers the score of an id present in semanticResults
and leaves the score of an id absent from semanticResults unchanged. -/
theorem c8_monotonicity (wk w1 w2 k : ℚ) (kw sem : List Row)
    (hw : w1 ≤ w2) (hk : 0 < k) :
    (∀ i, i ∈ sem.map Row.id →
      (mapGet (fusedScores wk w1 k kw sem) i).getD 0 ≤
        (mapGet (fusedScores wk w2 k kw sem) i).getD 0) ∧
    (∀ i, i ∉ sem.map Row.id →
      mapGet (fusedScores wk w1 k kw sem) i =
        mapGet (fusedScores wk w2 k kw sem) i) := by
  constructor
  · intro i hi
    have hcond : i ∈ kw.map Row.id ∨ i ∈ sem.map Row.id := Or.inr hi
    rw [fusedScores_get, fusedScores_get, if_pos hcond, if_pos hcond]
    simp only [Option.getD_some]
    have hbase : 0 ≤ contrib 1 k sem 1 i :=
      contrib_one_nonneg k sem 1 i hk one_pos
    have hmono : contrib w1 k sem 1 i ≤ contrib w2 k sem 1 i := by
      rw [contrib_smul w1, contrib_smul w2]
      exact mul_le_mul_of_nonneg_right hw hbase
    linarith
  · intro i hi
    rw [fusedScores_get, fusedScores_get,
      contrib_eq_zero w1 k sem 1 i hi, contrib_eq_zero w2 k sem 1 i hi]

/-- C8 witness at a concrete input. -/
theorem c8_monotonicity_witness :
    (1 : ℚ) ≤ 2 ∧ (0 : ℚ) < 60 ∧
    (mapGet (fusedScores 1 1 60 [] [⟨5, "x"⟩]) 5).getD 0 ≤
      (mapGet (fusedScores 1 2 60 [] [⟨5, "x"⟩]) 5).getD 0 := by
  refine ⟨by norm_num, by norm_num, ?_⟩
  exact (c8_monotonicity 1 1 2 60 [] [⟨5, "x"⟩] (by norm_num) (by norm_num)).1
    5 (by simp)

/-- C3: the specified RankFuser fails with InvalidArgument exactly when
k is non-positive, a weight is negative or limit is negative, and no other
error cause exists. -/
theorem c3_invalid_argument (kw sem : List Row) (k : ℚ) (w : Weights)
    (limit : ℤ) :
    (fuse kw sem k w limit = .error .invalidArgument ↔
      (k ≤ 0 ∨ w.keyword < 0 ∨ w.semantic < 0 ∨ limit < 0)) ∧
    (∀ e, fuse kw sem k w limit = .error e → e = .invalidArgument) := by
  constructor
  · constructor
    · intro h
      by_contra hc
      simp only [fuse, if_neg hc] at h
      exact Except.noConfusion h
    · intro h
      simp only [fuse, if_pos h]
  · intro e he
    cases e
    rfl

/-- C3 witness: concrete invalid and valid inputs. -/
theorem c3_invalid_argument_witness :
    fuse [] [] 0 ⟨1, 1⟩ 10 = .error .invalidArgument ∧
    ¬ fuse [] [] 60 ⟨1, 1⟩ 10 = .error .invalidArgument := by
  constructor
  · exact (c3_invalid_argument [] [] 0 ⟨1, 1⟩ 10).1.mpr (by norm_num)
  · intro h
    have h2 := (c3_invalid_argument [] [] 60 ⟨1, 1⟩ 10).1.mp h
    norm_num at h2

/-- C4: with valid parameters, fusing empty lists never fails: both lists
empty gives the empty output, and with exactly one empty list every output id
comes from the non-empty list. -/
theorem c4_empty_inputs (k : ℚ) (w : Weights) (limit : ℤ)
    (kws sems : List Row) (hk : 0 < k) (hkw : 0 ≤ w.keyword)
    (hsw : 0 ≤ w.semantic) (hl : 0 ≤ limit) :
    fuse [] [] k w limit = .ok [] ∧
    (∃ out, fuse kws [] k w limit = .ok out ∧
      ∀ r ∈ out, r.id ∈ kws.map Row.id) ∧
    (∃ out, fuse [] sems k w limit = .ok out ∧
      ∀ r ∈ out, r.id ∈ sems.map Row.id) := by
  have hcond : ¬(k ≤ 0 ∨ w.keyword < 0 ∨ w.semantic < 0 ∨ limit < 0) := by
    push_neg
    exact ⟨hk, hkw, hsw, hl⟩
  refine ⟨?_, ?_, ?_⟩
  · simp only [fuse, if_neg hcond]
    simp [fusedScores, fusePass, sortBy]
  · simp only [fuse, if_neg hcond]
    refine ⟨_, rfl, ?_⟩
    intro r hr
    simp only [List.mem_map] at hr
    obtain ⟨e, he, rfl⟩ := hr
    have he2 := List.mem_of_mem_take he
    have he3 := (sortBy_perm _ _).mem_iff.mp he2
    have he4 : e.1 ∈ (fusedScores w.keyword w.semantic k kws []).map Prod.fst :=
      List.mem_map_of_mem Prod.fst he3
    rw [mem_keys_fusedScores] at he4
    simpa using he4
  · simp only [fuse, if_neg hcond]
    refine ⟨_, rfl, ?_⟩
    intro r hr
    simp only [List.mem_map] at hr
    obtain ⟨e, he, rfl⟩ := hr
    have he2 := List.mem_of_mem_take he
    have he3 := (sortBy_perm _ _).mem_iff.mp he2
    have he4 : e.1 ∈ (fusedScores w.keyword w.semantic k [] sems).map Prod.fst :=
      List.mem_map_of_mem Prod.fst he3
    rw [mem_keys_fusedScores] at he4
    simpa using he4

/-- C4 witness at concrete inputs. -/
theorem c4_empty_inputs_witness :
    (0 : ℚ) < 60 ∧ (0 : ℚ) ≤ 1 ∧ (0 : ℤ) ≤ 10 ∧
    fuse [] [] 60 ⟨1, 1⟩ 10 = .ok [] := by
  refine ⟨by norm_num, by norm_num, by norm_num, ?_⟩
  exact (c4_empty_inputs 60 ⟨1, 1⟩ 10 [⟨1, "a"⟩] [⟨2, "b"⟩] (by norm_num)
    (by norm_num) (by norm_num) (by norm_num)).1

theorem specBefore_asymm (sem : List Row) (ids : List ℤ) (a b : ℤ × ℚ)
    (h : specBefore sem ids a b = true) : specBefore sem ids b a = false := by
  unfold specBefore at *
  rw [decide_eq_true_eq] at h
  rw [decide_eq_false_iff_not]
  exact keyLtP_asymm _ _ h

theorem specBefore_negtrans (sem : List Row) (ids : List ℤ) (a b c : ℤ × ℚ)
    (hab : specBefore sem ids a b = false)
    (hbc : specBefore sem ids b c = false) : specBefore sem ids a c = false := by
  unfold specBefore at *
  rw [decide_eq_false_iff_not] at hab hbc ⊢
  exact keyLtP_negtrans _ _ _ hab hbc

/-- The single-pair content of the tie-break guarantee: if entry `e2` does not
strictly precede entry `e1` under the specified order and their scores are
equal, the tie-break predicate holds of the corresponding results. -/
theorem specBefore_false_tieOk (sem : List Row) (ids : List ℤ) (e1 e2 : ℤ × ℚ)
    (cnt1 cnt2 : String)
    (hfalse : specBefore sem ids e2 e1 = false) (hscore : e1.2 = e2.2) :
    tieOk sem ids ⟨e1.1, cnt1, e1.2⟩ ⟨e2.1, cnt2, e2.2⟩ := by
  unfold specBefore at hfalse
  rw [decide_eq_false_iff_not] at hfalse
  simp only [sortKey, keyLtP] at hfalse
  push_neg at hfalse
  obtain ⟨h1, h2⟩ := hfalse
  have heq : -e2.2 = -e1.2 := by rw [hscore]
  obtain ⟨h3, h4⟩ := h2 heq
  cases hr1 : semRank sem e1.1 with
  | none =>
    cases hr2 : semRank sem e2.1 with
    | none =>
      simp only [tieOk, hr1, hr2]
      rw [hr1, hr2] at h3 h4
      simp only [Option.getD_none] at h3 h4
      exact h4 trivial
    | some rb =>
      simp only [tieOk, hr1, hr2]
      rw [hr1, hr2] at h3
      simp only [Option.getD_none, Option.getD_some] at h3
      have hb := semRank_le sem e2.1 rb hr2
      omega
  | some ra =>
    cases hr2 : semRank sem e2.1 with
    | none => simp [tieOk, hr1, hr2]
    | some rb =>
      simp only [tieOk, hr1, hr2]
      rw [hr1, hr2] at h3
      simp only [Option.getD_some] at h3
      exact h3

/-- C6: in the output of the specified RankFuser, any two results of equal
score are ordered by the documented tie-break: smaller semantic rank first
when both are in the semantic list, else semantic-present before
semantic-absent, else original encounter order. -/
theorem c6_tie_break (kw sem : List Row) (k : ℚ) (w : Weights) (limit : ℤ)
    (out : List Result) (h : fuse kw sem k w limit = .ok out) :
    out.Pairwise (fun a b => a.score = b.score →
      tieOk sem (kw.map Row.id ++ sem.map Row.id) a b) := by
  by_cases hcond : (k ≤ 0 ∨ w.keyword < 0 ∨ w.semantic < 0 ∨ limit < 0)
  · simp only [fuse, if_pos hcond] at h
    exact Except.noConfusion h
  · simp only [fuse, if_neg hcond] at h
    injection h with h
    subst h
    have hsort := sortBy_pairwise
      (specBefore sem (kw.map Row.id ++ sem.map Row.id))
      (specBefore_asymm sem (kw.map Row.id ++ sem.map Row.id))
      (specBefore_negtrans sem (kw.map Row.id ++ sem.map Row.id))
      (fusedScores w.keyword w.semantic k kw sem)
    have htake := List.Pairwise.sublist
      (List.take_sublist limit.toNat _) hsort
    rw [List.pairwise_map]
    refine htake.imp ?_
    intro e1 e2 hfalse hscore
    exact specBefore_false_tieOk sem (kw.map Row.id ++ sem.map Row.id) e1 e2
      _ _ hfalse hscore

/-- C6 witness at a concrete tied input: ids 1 (keyword only) and 2 (semantic
only) both score 1/61; the output puts the semantic-present id 2 first. -/
theorem c6_tie_break_witness :
    fuse [⟨1, "a"⟩] [⟨2, "b"⟩] 60 ⟨1, 1⟩ 10 =
      .ok [⟨2, "b", 1/61⟩, ⟨1, "a", 1/61⟩] ∧
    ([⟨2, "b", 1/61⟩, ⟨1, "a", 1/61⟩] : List Result).Pairwise
      (fun a b => a.score = b.score →
        tieOk [⟨2, "b"⟩] (([⟨1, "a"⟩] : List Row).map Row.id ++
          ([⟨2, "b"⟩] : List Row).map Row.id) a b) := by
  have hfuse : fuse [⟨1, "a"⟩] [⟨2, "b"⟩] 60 ⟨1, 1⟩ 10 =
      .ok [⟨2, "b", 1/61⟩, ⟨1, "a", 1/61⟩] := by
    norm_num [fuse, fusedScores, fusePass, mapGet, mapSet, firstContent,
      contentFirstPass, mapSetFirst, sortBy, insertBy, specBefore, sortKey,
      semRank, rankOf, firstIdx, keyLtP]
  exact ⟨hfuse, c6_tie_break [⟨1, "a"⟩] [⟨2, "b"⟩] 60 ⟨1, 1⟩ 10 _ hfuse⟩

/-- A trivial server context used to exercise the tool theorems on concrete
inputs. -/
def ctxZero : ServerContext :=
  ⟨"docs", fun _ _ => [], fun _ => [], fun _ => ""⟩

/-- C9: on a query that is empty after trimming, search_docs throws
"Query must be a non-empty string." and issues no external call, whatever the
source, search_type, version and limit are. -/
theorem c9_blank_query (ctx : ServerContext) (inp : SearchDocsInput)
    (h : jsTrim inp.query = "") :
    searchDocs ctx inp = ([], .error "Query must be a non-empty string.") := by
  simp only [searchDocs]
  rw [if_pos h]

/-- C9 witness at a whitespace query. -/
theorem c9_blank_query_witness :
    (jsTrim " " = "") ∧
    searchDocs ctxZero ⟨.tiger, .semantic, " ", .latest, 5⟩ =
      ([], .error "Query must be a non-empty string.") := by
  have ht : jsTrim " " = "" := by decide
  exact ⟨ht, c9_blank_query ctxZero ⟨.tiger, .semantic, " ", .latest, 5⟩ ht⟩

/-- C10 counterexample: an input with limit 0 on which the tool DOES fail
(blank query), refuting the unconditional claim that search_docs never fails
when the passed limit is non-positive. -/
theorem c10_counterexample :
    (0 : ℤ) ≤ 0 ∧
    searchDocs ctxZero ⟨.tiger, .keyword, "", .latest, 0⟩ =
      ([], .error "Query must be a non-empty string.") := by
  refine ⟨le_refl 0, ?_⟩
  simp only [searchDocs]
  rw [if_pos (by decide)]

/-- C10 amended: on any input whose query survives trimming the tool does not
fail, and the LIMIT parameter of every database query it issues is the passed
limit when positive and the default 10 otherwise. -/
theorem c10_limit_default (ctx : ServerContext) (inp : SearchDocsInput)
    (h : ¬ jsTrim inp.query = "") :
    (∃ rows, (searchDocs ctx inp).2 = .ok rows) ∧
    (∀ q ps, ExtCall.dbQuery q ps ∈ (searchDocs ctx inp).1 →
      callLimit (ExtCall.dbQuery q ps) =
        some (if 0 < inp.limit then inp.limit else 10)) := by
  obtain ⟨source, search_type, query, version, limit⟩ := inp
  simp only [searchDocs]
  rw [if_neg h]
  cases search_type with
  | semantic =>
    cases source with
    | tiger =>
      refine ⟨⟨_, rfl⟩, ?_⟩
      intro q ps hmem
      simp only [List.mem_cons, List.not_mem_nil, or_false] at hmem
      rcases hmem with hmem | hmem
      · exact ExtCall.noConfusion hmem
      · injection hmem with hq hp
        subst hp
        simp [callLimit, List.getLast?, gt_iff_lt]
    | postgres =>
      refine ⟨⟨_, rfl⟩, ?_⟩
      intro q ps hmem
      simp only [List.mem_cons, List.not_mem_nil, or_false] at hmem
      rcases hmem with hmem | hmem
      · exact ExtCall.noConfusion hmem
      · injection hmem with hq hp
        subst hp
        simp [callLimit, List.getLast?, gt_iff_lt]
  | keyword =>
    cases source with
    | tiger =>
      refine ⟨⟨_, rfl⟩, ?_⟩
      intro q ps hmem
      simp only [List.mem_cons, List.not_mem_nil, or_false] at hmem
      injection hmem with hq hp
      subst hp
      simp [callLimit, List.getLast?, gt_iff_lt]
    | postgres =>
      refine ⟨⟨_, rfl⟩, ?_⟩
      intro q ps hmem
      simp only [List.mem_cons, List.not_mem_nil, or_false] at hmem
      injection hmem with hq hp
      subst hp
      simp [callLimit, List.getLast?, gt_iff_lt]

/-- C10 amended witness: with limit 0 and a non-blank query the issued query
caps rows at the default 10. -/
theorem c10_limit_default_witness :
    (¬ jsTrim "q" = "") ∧
    (∃ rows,
      (searchDocs ctxZero ⟨.tiger, .keyword, "q", .latest, 0⟩).2 = .ok rows) ∧
    (∀ q ps, ExtCall.dbQuery q ps ∈
        (searchDocs ctxZero ⟨.tiger, .keyword, "q", .latest, 0⟩).1 →
      callLimit (ExtCall.dbQuery q ps) =
        some (if (0 : ℤ) < 0 then (0 : ℤ) else 10)) := by
  have hq : ¬ jsTrim "q" = "" := by decide
  exact ⟨hq, c10_limit_default ctxZero ⟨.tiger, .keyword, "q", .latest, 0⟩ hq⟩
